import Mathlib

/-!
Verification of the text-extraction and classification core of the
usc-free-food repository (utils/htmlParser.js, utils/freeFoodKeywords.js,
utils/engageClient.js).

Strings are modelled as `List Char` (JS strings restricted to Unicode scalar
values; the claims only exercise scalar text).  Each JavaScript function is
translated into an executable Lean definition; regex-based `String.replace`
calls are translated into explicit left-to-right scanners with the same
match/continue semantics as the JavaScript regexes they implement.
-/

/-- Character list of a Lean string literal (concrete-input helper). -/
def str (s : String) : List Char := s.data

/-- The character class `[ \t]` used by `/[ \t]+/` and `/[ \t]*\n[ \t]*/`. -/
def isST (c : Char) : Bool := c == ' ' || c == '\t'

/-- JavaScript whitespace: the set matched by `\s` and trimmed by
`String.prototype.trim` (space, tab, LF, CR, VT, FF, NBSP, BOM, and the
Unicode space separators and line/paragraph separators). -/
def isJsWs (c : Char) : Bool :=
  c == ' ' || c == '\t' || c == '\n' || c == '\r' ||
  c.toNat == 11 || c.toNat == 12 || c.toNat == 160 || c.toNat == 65279 ||
  c.toNat == 5760 || (8192 ≤ c.toNat && c.toNat ≤ 8202) || c.toNat == 8232 ||
  c.toNat == 8233 || c.toNat == 8239 || c.toNat == 8287 || c.toNat == 12288

/-- JavaScript word character, the class `\w = [A-Za-z0-9_]` used by `\b`. -/
def isWordChar (c : Char) : Bool :=
  ('a' ≤ c && c ≤ 'z') || ('A' ≤ c && c ≤ 'Z') || ('0' ≤ c && c ≤ '9') || c == '_'

/-- JS `String.prototype.toLowerCase`, restricted to ASCII (all inputs the
claims exercise are ASCII; `Char.toLower` agrees with JS there). -/
def lowerAscii (s : List Char) : List Char := s.map Char.toLower

/-- JS `String.prototype.includes`: substring containment. -/
def containsSub (hay pat : List Char) : Bool :=
  match hay with
  | [] => pat.isEmpty
  | c :: t => pat.isPrefixOf (c :: t) || containsSub t pat

/-- Leading-whitespace strip (front half of JS `trim`). -/
def dropWs (s : List Char) : List Char := s.dropWhile isJsWs

/-- Trailing-whitespace strip (back half of JS `trim`). -/
def rdropWs (s : List Char) : List Char := (s.reverse.dropWhile isJsWs).reverse

/-- JS `String.prototype.trim`. -/
def trimJs (s : List Char) : List Char := rdropWs (dropWs s)

/-- Scanner for `replace(/RUN+/g, r)` where `RUN` is the class `p`:
each maximal run of `p`-characters is replaced by the single character `r`.
The flag records whether the previous character was inside a run. -/
def collapseRunsAux (p : Char → Bool) (r : Char) : Bool → List Char → List Char
  | _, [] => []
  | inRun, c :: t =>
    if p c then
      if inRun then collapseRunsAux p r true t
      else r :: collapseRunsAux p r true t
    else c :: collapseRunsAux p r false t

/-- `replace(/[ \t]+/g, " ")`: collapse space/tab runs to one space. -/
def collapseST (s : List Char) : List Char := collapseRunsAux isST ' ' false s

/-- `replace(/\s+/g, " ")`: collapse all-whitespace runs to one space. -/
def collapseWs (s : List Char) : List Char := collapseRunsAux isJsWs ' ' false s

/-- Scanner for `replace(/[ \t]*\n[ \t]*/g, "\n")`.  `pend` holds the
pending run of spaces/tabs (dropped if a newline follows, flushed
otherwise); `afterNl` is set just after an emitted newline, where the
regex's trailing `[ \t]*` has consumed the spaces. -/
def trimNlAux : List Char → Bool → List Char → List Char
  | pend, _, [] => pend
  | pend, afterNl, c :: t =>
    if c = '\n' then '\n' :: trimNlAux [] true t
    else if isST c then
      if afterNl then trimNlAux [] true t
      else trimNlAux (pend ++ [c]) false t
    else pend ++ c :: trimNlAux [] false t

/-- `replace(/[ \t]*\n[ \t]*/g, "\n")`: trim spaces/tabs around newlines. -/
def trimNl (s : List Char) : List Char := trimNlAux [] false s

/-- Scanner for `replace(/\n{3,}/g, "\n\n")`; `n` counts pending newlines:
a finished run of `n` newlines is emitted as `min n 2` newlines. -/
def collapseNl3Aux : Nat → List Char → List Char
  | n, [] => List.replicate (min n 2) '\n'
  | n, c :: t =>
    if c = '\n' then collapseNl3Aux (n + 1) t
    else List.replicate (min n 2) '\n' ++ c :: collapseNl3Aux 0 t

/-- `replace(/\n{3,}/g, "\n\n")`: collapse 3+ newlines to exactly two. -/
def collapseNl3 (s : List Char) : List Char := collapseNl3Aux 0 s

/-- Fuel-driven scanner for `replace(pat, repl)` with a global literal
pattern: leftmost match is replaced and scanning resumes after the
replacement.  Fuel `s.length` always suffices (each step consumes at least
one input character); on exhausted fuel the remainder is returned as-is. -/
def replaceAllFuel (pat repl : List Char) : Nat → List Char → List Char
  | _, [] => []
  | 0, s => s
  | Nat.succ f, c :: t =>
    if pat ≠ [] ∧ pat.isPrefixOf (c :: t) then
      repl ++ replaceAllFuel pat repl f (List.drop (pat.length - 1) t)
    else c :: replaceAllFuel pat repl f t

/-- JS `String.prototype.replace` with a global literal pattern. -/
def replaceAll (pat repl s : List Char) : List Char :=
  replaceAllFuel pat repl s.length s

/-- JS `String.fromCharCode`: the argument is reduced modulo 2^16
(ToUint16) before being turned into a (BMP) character.  Lone surrogates,
which a `List Char` cannot hold, do not occur in any claim input. -/
def fromCharCode (n : Nat) : List Char := [Char.ofNat (n % 65536)]

/-- Decimal digit-string value, as parsed by the `&#NNN;` regex capture. -/
def digitsToNat (ds : List Char) : Nat :=
  ds.foldl (fun a c => a * 10 + (c.toNat - 48)) 0

/-- Hex digit (case-insensitive, as in `/&#x([0-9a-f]+);/i`). -/
def isHexDigitJs (c : Char) : Bool :=
  c.isDigit || ('a' ≤ c && c ≤ 'f') || ('A' ≤ c && c ≤ 'F')

/-- Hex digit-string value. -/
def hexToNat (ds : List Char) : Nat :=
  ds.foldl (fun a c =>
    a * 16 + (if c.isDigit then c.toNat - 48
              else if 'a' ≤ c && c ≤ 'f' then c.toNat - 87
              else c.toNat - 55)) 0

/-- Attempt to match the tail `#NNN;` of a decimal reference `&#NNN;`;
returns the numeric value and the remainder after the semicolon. -/
def decNumMatch : List Char → Option (Nat × List Char)
  | '#' :: u =>
    match u.dropWhile Char.isDigit with
    | ';' :: r =>
      if u.takeWhile Char.isDigit = [] then none
      else some (digitsToNat (u.takeWhile Char.isDigit), r)
    | _ => none
  | _ => none

/-- Attempt to match the tail `#xHHHH;` of a hex reference `&#xHHHH;`. -/
def hexNumMatch : List Char → Option (Nat × List Char)
  | '#' :: x :: u =>
    if x = 'x' ∨ x = 'X' then
      match u.dropWhile isHexDigitJs with
      | ';' :: r =>
        if u.takeWhile isHexDigitJs = [] then none
        else some (hexToNat (u.takeWhile isHexDigitJs), r)
      | _ => none
    else none
  | _ => none

/-- Scanner for `replace(/&#(\d+);/g, (m, dec) => String.fromCharCode(dec))`. -/
def decodeDecFuel : Nat → List Char → List Char
  | _, [] => []
  | 0, s => s
  | Nat.succ f, c :: t =>
    if c = '&' then
      match decNumMatch t with
      | some (n, r) => fromCharCode n ++ decodeDecFuel f r
      | none => c :: decodeDecFuel f t
    else c :: decodeDecFuel f t

/-- `replace(/&#(\d+);/g, ...)`: decode decimal numeric references. -/
def decodeDecEntities (s : List Char) : List Char := decodeDecFuel s.length s

/-- Scanner for `replace(/&#x([0-9a-f]+);/gi, (m, hex) =>
String.fromCharCode(parseInt(hex, 16)))`. -/
def decodeHexFuel : Nat → List Char → List Char
  | _, [] => []
  | 0, s => s
  | Nat.succ f, c :: t =>
    if c = '&' then
      match hexNumMatch t with
      | some (n, r) => fromCharCode n ++ decodeHexFuel f r
      | none => c :: decodeHexFuel f t
    else c :: decodeHexFuel f t

/-- `replace(/&#x([0-9a-f]+);/gi, ...)`: decode hex numeric references. -/
def decodeHexEntities (s : List Char) : List Char := decodeHexFuel s.length s

/-- The replacement chain of `decodeHtmlEntities` (htmlParser.js lines
64-76), in source order: `&amp; &lt; &gt; &quot; &#39; &ndash; &mdash;
&nbsp;`, then decimal and hex numeric references. -/
def decodeEntitiesSeq (s : List Char) : List Char :=
  decodeHexEntities (decodeDecEntities
    (replaceAll (str "&nbsp;") (str " ")
      (replaceAll (str "&mdash;") (str "—")
        (replaceAll (str "&ndash;") (str "–")
          (replaceAll (str "&#39;") (str "\x27")
            (replaceAll (str "&quot;") (str "\"")
              (replaceAll (str "&gt;") (str ">")
                (replaceAll (str "&lt;") (str "<")
                  (replaceAll (str "&amp;") (str "&") s)))))))))

/-- A JavaScript value passed where a string is expected (models the
`if (!str || typeof str !== "string") return ""` guards). -/
inductive JsVal where
  | nullV
  | undefinedV
  | numV (n : Int)
  | strV (s : List Char)
deriving DecidableEq

/-- `decodeHtmlEntities` (htmlParser.js lines 61-77): guard plus the
entity-replacement chain. -/
def decodeHtmlEntities (v : JsVal) : List Char :=
  match v with
  | .strV s => if s = [] then [] else decodeEntitiesSeq s
  | _ => []

/-- The entity chain inlined in `processDescriptionText` (htmlParser.js
lines 189-201); same replacements, with `&nbsp;` ordered before the dash
entities as in the source. -/
def pdtEntityDecode (s : List Char) : List Char :=
  decodeHexEntities (decodeDecEntities
    (replaceAll (str "&mdash;") (str "—")
      (replaceAll (str "&ndash;") (str "–")
        (replaceAll (str "&nbsp;") (str " ")
          (replaceAll (str "&#39;") (str "\x27")
            (replaceAll (str "&quot;") (str "\"")
              (replaceAll (str "&gt;") (str ">")
                (replaceAll (str "&lt;") (str "<")
                  (replaceAll (str "&amp;") (str "&") s)))))))))

/-- `processDescriptionText` (htmlParser.js lines 183-204): collapse
space/tab runs, trim spaces around newlines, collapse 3+ newlines, decode
entities, trim. -/
def processDescriptionText (s : List Char) : List Char :=
  trimJs (pdtEntityDecode (collapseNl3 (trimNl (collapseST s))))

/-- A node of the tree built by the node-html-parser adapter (the external
Document Parser): a text node with raw character data, or an element with a
tag name, attribute list and ordered children. -/
inductive HNode where
  | text (raw : List Char)
  | element (tag : List Char) (attrs : List (List Char × List Char)) (children : List HNode)

/-- The `BLOCK_TAGS` set (htmlParser.js lines 3-15). -/
def BLOCK_TAGS : List (List Char) :=
  [str "div", str "p", str "br", str "li", str "tr",
   str "h1", str "h2", str "h3", str "h4", str "h5", str "h6"]

/-- `replace(/ /g, " ")`: non-breaking spaces become plain spaces. -/
def nbspToSpace (s : List Char) : List Char :=
  s.map (fun c => if c.toNat = 160 then ' ' else c)

/-- `extractNodeText` (htmlParser.js lines 159-178): text nodes are
whitespace-normalized and trimmed; `<br>` yields a bare newline ignoring
children; other elements join their children's non-empty extractions with
a blank line when the element's own tag is a block tag, else a space, and
trim the result. -/
def extractNodeText : HNode → List Char
  | .text raw => trimJs (collapseST (nbspToSpace raw))
  | .element tag _ cs =>
    if lowerAscii tag = str "br" then str "\n"
    else
      trimJs (List.intercalate
        (if lowerAscii tag ∈ BLOCK_TAGS then str "\n\n" else str " ")
        ((cs.attach.map (fun c => extractNodeText c.1)).filter (fun s => s ≠ [])))
termination_by n => sizeOf n
decreasing_by
  simp_wf
  have := List.sizeOf_lt_of_mem c.2
  omega

/-- Attribute lookup on an element's attribute list. -/
def getAttr (attrs : List (List Char × List Char)) (name : List Char) : Option (List Char) :=
  (attrs.find? (fun p => p.1 == name)).map (fun p => p.2)

/-- Matches the selector `a[aria-label*="Copy link"]` of `cleanEventDOM`:
an anchor (tag names compare case-insensitively in HTML) whose
`aria-label` value contains the substring `"Copy link"`.  Attribute-value
substring matching in css-select is case-sensitive for `aria-label` (the
selector carries no `i` flag). -/
def isCopyLinkAnchor : HNode → Bool
  | .text _ => false
  | .element tag attrs _ =>
    lowerAscii tag == str "a" &&
      (match getAttr attrs (str "aria-label") with
       | some v => containsSub v (str "Copy link")
       | none => false)

/-- A node that is the immediate structural parent of a Copy-link anchor. -/
def isCopyLinkParentNode : HNode → Bool
  | .text _ => false
  | .element _ _ cs => cs.any isCopyLinkAnchor

/-- The Copy-link pass of `cleanEventDOM` (htmlParser.js lines 143-147):
every anchor matching `a[aria-label*="Copy link"]` has its `parentNode`
removed.  The snapshot-then-remove loop of the source is equivalent to
this recursive filter: a child is dropped exactly when one of its direct
children is a matching anchor. -/
def removeCopyLinkParents : HNode → HNode
  | .text r => .text r
  | .element tag attrs cs =>
    .element tag attrs
      (((cs.filter (fun c => !isCopyLinkParentNode c)).attach.map
        (fun c => removeCopyLinkParents c.1)))
termination_by n => sizeOf n
decreasing_by
  simp_wf
  have := List.sizeOf_lt_of_mem (List.mem_of_mem_filter c.2)
  omega

/-- Concatenated raw text of a subtree (the parser adapter's `.text`). -/
def nodeRawText : HNode → List Char
  | .text r => r
  | .element _ _ cs => ((cs.attach.map (fun c => nodeRawText c.1))).flatten
termination_by n => sizeOf n
decreasing_by
  simp_wf
  have := List.sizeOf_lt_of_mem c.2
  omega

/-- All descendant-or-self `<p>` elements in document order (tag selector
matching is case-insensitive). -/
def collectPs : HNode → List HNode
  | .text _ => []
  | .element tag attrs cs =>
    (if lowerAscii tag = str "p" then [HNode.element tag attrs cs] else []) ++
      ((cs.attach.map (fun c => collectPs c.1))).flatten
termination_by n => sizeOf n
decreasing_by
  simp_wf
  have := List.sizeOf_lt_of_mem c.2
  omega

/-- `replace(/\s*[–-]\s*$/, "")`: strip one trailing dash (hyphen or en
dash) together with the whitespace around it. -/
def stripTrailingDash (s : List Char) : List Char :=
  match s.reverse.dropWhile isJsWs with
  | c :: t => if c = '-' ∨ c = '–' then (t.dropWhile isJsWs).reverse else s
  | [] => s

/-- `parseDateInfoFromHtml` (htmlParser.js lines 96-117) applied to the
already-parsed fragment (entity decoding and parsing happen before this
point; the Document Parser is the external collaborator).  The
`querySelectorAll("p")` result is the descendants of the root. -/
def parseDateInfoFromNode (root : HNode) : List Char :=
  let ps := match root with
    | .text _ => []
    | .element _ _ cs => (cs.map collectPs).flatten
  let texts := (ps.map (fun p => trimJs (nodeRawText p))).filter (fun s => s ≠ [])
  let text := if ps.isEmpty then trimJs (collapseWs (nodeRawText root))
              else trimJs (collapseWs (List.intercalate (str " ") texts))
  trimJs (stripTrailingDash text)

/-- `parseEngageSingleDate` (htmlParser.js lines 122-131).  The host's
`new Date(cleaned)` parse and `formatEventDate` locale formatter are the
external collaborators, passed as `dateParse` and `fmt`; `new Date` is
attempted only on a non-empty cleaned string, and an invalid parse
degrades to the cleaned raw text with an absent instant. -/
def parseEngageSingleDate (dateParse : List Char → Option Int) (fmt : Int → List Char)
    (root : HNode) : Option Int × List Char :=
  let cleaned := parseDateInfoFromNode root
  match (if cleaned = [] then none else dateParse cleaned) with
  | some d => (some d, fmt d)
  | none => (none, cleaned)

/-- Does the list start with a JS whitespace character? -/
def headIsWs (u : List Char) : Bool :=
  match u.head? with
  | some w => isJsWs w
  | none => false

/-- Scanner for `replace(/\s+slash\s+/gi, " / ")` in `cleanLabel`:
whitespace-bounded, case-insensitive word `slash` becomes `" / "`. -/
def slashWordFuel : Nat → List Char → List Char
  | _, [] => []
  | 0, s => s
  | Nat.succ f, c :: t =>
    if isJsWs c then
      if lowerAscii ((t.dropWhile isJsWs).take 5) = str "slash" ∧
          headIsWs ((t.dropWhile isJsWs).drop 5) = true then
        str " / " ++ slashWordFuel f (((t.dropWhile isJsWs).drop 5).dropWhile isJsWs)
      else c :: slashWordFuel f t
    else c :: slashWordFuel f t

/-- `replace(/\s+slash\s+/gi, " / ")`. -/
def slashWord (s : List Char) : List Char := slashWordFuel s.length s

/-- Scanner for `replace(/\s*\/\s*/g, " / ")` in `cleanLabel`: a slash and
any whitespace around it become `" / "`. -/
def normSlashFuel : Nat → List Char → List Char
  | _, [] => []
  | 0, s => s
  | Nat.succ f, c :: t =>
    if c = '/' then str " / " ++ normSlashFuel f (t.dropWhile isJsWs)
    else if isJsWs c then
      match t.dropWhile isJsWs with
      | '/' :: u => str " / " ++ normSlashFuel f (u.dropWhile isJsWs)
      | _ => c :: normSlashFuel f t
    else c :: normSlashFuel f t

/-- `replace(/\s*\/\s*/g, " / ")`. -/
def normSlash (s : List Char) : List Char := normSlashFuel s.length s

/-- `cleanLabel` (htmlParser.js lines 21-27). -/
def cleanLabel (l : List Char) : List Char :=
  trimJs (collapseWs (normSlash (slashWord l)))

/-- Case-insensitive deduplication keeping first-seen order and casing
(the `seen`-set loop of `extractAriaLabelsAsCategory`). -/
def dedupCIAux : List (List Char) → List (List Char) → List (List Char)
  | _, [] => []
  | seen, l :: ls =>
    if lowerAscii l ∈ seen then dedupCIAux seen ls
    else l :: dedupCIAux (lowerAscii l :: seen) ls

/-- The label pipeline of `extractAriaLabelsAsCategory` (htmlParser.js
lines 39-55), over the list of raw `aria-label` values of the fragment:
trim, drop empties, clean, dedup case-insensitively, join with " / ". -/
def extractCategoryCore (labels : List (List Char)) : List Char :=
  List.intercalate (str " / ")
    (dedupCIAux [] (((labels.map trimJs).filter (fun s => s ≠ [])).map cleanLabel))

/-- `extractAriaLabelsAsCategory` (htmlParser.js lines 33-56): guard on
non-string/empty input, then the label pipeline; `ariaLabelsOf` is the
external parser adapter's `querySelectorAll("[aria-label]")` attribute
read, in document order. -/
def extractAriaLabelsAsCategory (v : JsVal)
    (ariaLabelsOf : List Char → List (List Char)) : List Char :=
  match v with
  | .strV s => if s = [] then [] else extractCategoryCore (ariaLabelsOf s)
  | _ => []

/-- `freeFoodKeywords` (freeFoodKeywords.js lines 216-289), in source
order. -/
def freeFoodKeywords : List (List Char) :=
  [str "free food", str "free pizza", str "free lunch", str "free dinner",
   str "free breakfast", str "free snacks", str "free refreshments",
   str "free drinks", str "free beverages", str "free coffee", str "free tea",
   str "free boba", str "free bubble tea",
   str "free cookies", str "free dessert", str "free ice cream",
   str "free gelato", str "free pastries", str "free donuts", str "free bagels",
   str "free cupcakes", str "free brownies",
   str "free sandwiches", str "free subs", str "free burritos", str "free tacos",
   str "free wings", str "free bbq", str "free ramen", str "free sushi",
   str "food provided", str "snacks provided", str "drinks provided",
   str "refreshments provided", str "meal provided", str "lunch provided",
   str "dinner provided", str "breakfast provided", str "pizza provided",
   str "food will be served", str "refreshments will be served",
   str "snacks will be served", str "drinks will be served",
   str "complimentary food", str "complimentary meal",
   str "complimentary refreshments", str "complimentary snacks",
   str "catering provided", str "catered event",
   str "light refreshments", str "appetizers provided", str "hors d\x27oeuvres",
   str "treats", str "bites", str "munchies", str "food", str "snacks",
   str "drinks"]

/-- `checkFreeFood` (freeFoodKeywords.js lines 296-299). -/
def checkFreeFood (text : List Char) : Bool :=
  freeFoodKeywords.any (fun kw => containsSub (lowerAscii text) kw)

/-- `getMatchedKeywords` (freeFoodKeywords.js lines 306-309). -/
def getMatchedKeywords (text : List Char) : List (List Char) :=
  freeFoodKeywords.filter (fun kw => containsSub (lowerAscii text) kw)

/-- `HOUSING_ONLY_MARKERS` (engageClient.js lines 17-22). -/
def HOUSING_ONLY_MARKERS : List (List Char) :=
  [str "This event is open to USC Housing Residents only. Residential Education operates its programs in accordance with USC\x27s Notice of Non-Discrimination.",
   str "usc housing residents",
   str "housing residents only",
   str "RA"]

/-- Tail of a match of `/\bras?\b/i` after the `r` and `a` have matched:
the optional `s` is tried greedily first, then the trailing `\b` must
hold (next character, if any, is not a word character). -/
def raMatchTail : List Char → Bool
  | [] => true
  | x :: v =>
    if x = 's' ∨ x = 'S' then
      match v with
      | [] => true
      | y :: _ => !(isWordChar y)
    else !(isWordChar x)

/-- Does `/\bras?\b/i` match at exactly this position (boundary before the
position is checked by the caller)? -/
def raMatchHere : List Char → Bool
  | c :: a :: u => (c == 'r' || c == 'R') && ((a == 'a' || a == 'A') && raMatchTail u)
  | _ => false

/-- Scan for `/\bras?\b/i`: `prev` is the character before the current
position (`none` at the start of the string); `\b` before `r` holds when
`prev` is absent or not a word character. -/
def raScanAux : Option Char → List Char → Bool
  | _, [] => false
  | prev, c :: t =>
    ((match prev with | none => true | some p => !(isWordChar p)) &&
      raMatchHere (c :: t)) || raScanAux (some c) t

/-- `RA_WORD_REGEX.test` (engageClient.js line 79): `/\bras?\b/i`. -/
def raTest (s : List Char) : Bool := raScanAux none s

/-- `isHousingOnlyEvent` (engageClient.js lines 84-92): the `"RA"` marker
is tested with the word-boundary regex against the original description,
every other marker by lowercase substring containment. -/
def isHousingOnlyEvent (description : List Char) : Bool :=
  HOUSING_ONLY_MARKERS.any (fun marker =>
    if marker = str "RA" then raTest description
    else containsSub (lowerAscii description) (lowerAscii marker))

/-- Absence of removal targets for the Copy-link pass: no element of the
subtree has a child that is the parent of a Copy-link anchor. -/
def noRemovalTargets : HNode → Bool
  | .text _ => true
  | .element _ _ cs =>
    cs.all (fun c => !isCopyLinkParentNode c) &&
      cs.attach.all (fun c => noRemovalTargets c.1)
termination_by n => sizeOf n
decreasing_by
  simp_wf
  have := List.sizeOf_lt_of_mem c.2
  omega

/-- Adjacency invariant combinator: `pairsOK R s` holds when every pair of
adjacent characters of `s` satisfies `R`. -/
def pairsOK (R : Char → Char → Bool) : List Char → Bool
  | a :: b :: t => R a b && pairsOK R (b :: t)
  | _ => true

/-- No two adjacent space/tab characters (the fixed points of
`/[ \t]+/g → " "` have only singleton space runs). -/
def okRun (a b : Char) : Bool := !(isST a && isST b)

/-- No space/tab adjacent to a newline (the fixed points of
`/[ \t]*\n[ \t]*/g → "\n"`). -/
def okNlSp (a b : Char) : Bool := !(isST a && b == '\n') && !(a == '\n' && isST b)

/-- No three consecutive newlines (the fixed points of
`/\n{3,}/g → "\n\n"`). -/
def noNl3 : List Char → Bool
  | a :: b :: c :: t => !(a == '\n' && b == '\n' && c == '\n') && noNl3 (b :: c :: t)
  | _ => true

/-- The fragment `X<br><br>Y` inside the block detail-card container, as
extraction sees it in `scanEventDetails` (the card-block is a `div`). -/
def brbrFragment : HNode :=
  .element (str "div") []
    [.text (str "X"), .element (str "br") [] [], .element (str "br") [] [],
     .text (str "Y")]

/-- The fragment `<p>A</p><p>B</p>` inside the block detail-card container. -/
def pFragment : HNode :=
  .element (str "div") []
    [.element (str "p") [] [.text (str "A")], .element (str "p") [] [.text (str "B")]]

/-- The fragment `<span>A</span><span>B</span>` inside the block
detail-card container. -/
def spanFragment : HNode :=
  .element (str "div") []
    [.element (str "span") [] [.text (str "A")],
     .element (str "span") [] [.text (str "B")]]

/-- The fragment `<span>A</span><span>B</span>` under an inline (`span`)
parent. -/
def spanInlineParent : HNode :=
  .element (str "span") []
    [.element (str "span") [] [.text (str "A")],
     .element (str "span") [] [.text (str "B")]]

/-- An anchor labelled `"Copy link to event"` (matches the selector). -/
def copyLinkAnchorUpper : HNode :=
  .element (str "a") [(str "aria-label", str "Copy link to event")] []

/-- An anchor labelled `"copy link to event"` (lower-case variant). -/
def copyLinkAnchorLower : HNode :=
  .element (str "a") [(str "aria-label", str "copy link to event")] []

/-- A detail card containing a Copy-link anchor inside a wrapper div. -/
def cardWithCopyLink : HNode :=
  .element (str "div") []
    [.text (str "Details"), .element (str "div") [] [copyLinkAnchorUpper],
     .element (str "p") [] [.text (str "Body")]]

/-- The same card with the lower-case `"copy link"` label. -/
def cardWithLowerCopyLink : HNode :=
  .element (str "div") []
    [.text (str "Details"), .element (str "div") [] [copyLinkAnchorLower],
     .element (str "p") [] [.text (str "Body")]]

/-- A date fragment whose whole text is the unparseable string `"TBD"`. -/
def tbdFragment : HNode := .element (str "") [] [.text (str "TBD")]

/-- Unfolding of `extractNodeText` on a text node. -/
theorem extractNodeText_text (raw : List Char) :
    extractNodeText (.text raw) = trimJs (collapseST (nbspToSpace raw)) := by
  unfold extractNodeText
  rfl

/-- Unfolding of `extractNodeText` on an element, with the termination
scaffolding removed. -/
theorem extractNodeText_element (tag : List Char)
    (attrs : List (List Char × List Char)) (cs : List HNode) :
    extractNodeText (.element tag attrs cs) =
      if lowerAscii tag = str "br" then str "\n"
      else trimJs (List.intercalate
        (if lowerAscii tag ∈ BLOCK_TAGS then str "\n\n" else str " ")
        ((cs.map extractNodeText).filter (fun s => s ≠ []))) := by
  unfold extractNodeText
  rw [List.attach_map_val cs extractNodeText]

/-- Unfolding of `nodeRawText`. -/
theorem nodeRawText_text (raw : List Char) : nodeRawText (.text raw) = raw := by
  unfold nodeRawText
  rfl

theorem nodeRawText_element (tag : List Char)
    (attrs : List (List Char × List Char)) (cs : List HNode) :
    nodeRawText (.element tag attrs cs) = (cs.map nodeRawText).flatten := by
  unfold nodeRawText
  rw [List.attach_map_val cs nodeRawText]

/-- Unfolding of `collectPs`. -/
theorem collectPs_text (raw : List Char) : collectPs (.text raw) = [] := by
  unfold collectPs
  rfl

theorem collectPs_element (tag : List Char)
    (attrs : List (List Char × List Char)) (cs : List HNode) :
    collectPs (.element tag attrs cs) =
      (if lowerAscii tag = str "p" then [HNode.element tag attrs cs] else []) ++
        (cs.map collectPs).flatten := by
  unfold collectPs
  rw [List.attach_map_val cs collectPs]

/-- Unfolding of `removeCopyLinkParents`. -/
theorem removeCopyLinkParents_text (raw : List Char) :
    removeCopyLinkParents (.text raw) = .text raw := by
  unfold removeCopyLinkParents
  rfl

theorem removeCopyLinkParents_element (tag : List Char)
    (attrs : List (List Char × List Char)) (cs : List HNode) :
    removeCopyLinkParents (.element tag attrs cs) =
      .element tag attrs
        ((cs.filter (fun c => !isCopyLinkParentNode c)).map removeCopyLinkParents) := by
  unfold removeCopyLinkParents
  rw [List.attach_map_val _ removeCopyLinkParents]

/-- Unfolding of `noRemovalTargets`. -/
theorem noRemovalTargets_text (raw : List Char) :
    noRemovalTargets (.text raw) = true := by
  unfold noRemovalTargets
  rfl

theorem noRemovalTargets_element (tag : List Char)
    (attrs : List (List Char × List Char)) (cs : List HNode) :
    noRemovalTargets (.element tag attrs cs) =
      (cs.all (fun c => !isCopyLinkParentNode c) && cs.all noRemovalTargets) := by
  unfold noRemovalTargets
  congr 1
  rw [Bool.eq_iff_iff, List.all_eq_true, List.all_eq_true]
  exact ⟨fun h c hc => h ⟨c, hc⟩ (List.mem_attach _ _), fun h c _ => h c.1 c.2⟩

/-- Helper evaluation: extraction of small leaf nodes used by the
concrete fragments. -/
theorem extract_text_X : extractNodeText (.text (str "X")) = str "X" := by
  rw [extractNodeText_text]; decide

theorem extract_text_Y : extractNodeText (.text (str "Y")) = str "Y" := by
  rw [extractNodeText_text]; decide

theorem extract_text_A : extractNodeText (.text (str "A")) = str "A" := by
  rw [extractNodeText_text]; decide

theorem extract_text_B : extractNodeText (.text (str "B")) = str "B" := by
  rw [extractNodeText_text]; decide

theorem extract_br_empty : extractNodeText (.element (str "br") [] []) = str "\n" := by
  rw [extractNodeText_element]; decide

theorem extract_p_A : extractNodeText (.element (str "p") [] [.text (str "A")]) = str "A" := by
  rw [extractNodeText_element]
  simp only [List.map_cons, List.map_nil, extract_text_A]
  decide

theorem extract_p_B : extractNodeText (.element (str "p") [] [.text (str "B")]) = str "B" := by
  rw [extractNodeText_element]
  simp only [List.map_cons, List.map_nil, extract_text_B]
  decide

theorem extract_span_A : extractNodeText (.element (str "span") [] [.text (str "A")]) = str "A" := by
  rw [extractNodeText_element]
  simp only [List.map_cons, List.map_nil, extract_text_A]
  decide

theorem extract_span_B : extractNodeText (.element (str "span") [] [.text (str "B")]) = str "B" := by
  rw [extractNodeText_element]
  simp only [List.map_cons, List.map_nil, extract_text_B]
  decide

/-- C3: a line-break element contributes a single newline regardless of its
children, and the fragment `X<br><br>Y`, extracted inside the block card
container and then normalized, is exactly `"X\n\nY"`: the two `<br>`
elements each contribute their own newline and the parent's join does not
suppress the blank line. -/
theorem extractNodeText_br_double_break :
    (∀ tag attrs cs, lowerAscii tag = str "br" →
      extractNodeText (.element tag attrs cs) = str "\n") ∧
    processDescriptionText (extractNodeText brbrFragment) = str "X\n\nY" := by
  constructor
  · intro tag attrs cs h
    rw [extractNodeText_element, if_pos h]
  · unfold brbrFragment
    rw [extractNodeText_element]
    simp only [List.map_cons, List.map_nil, extract_text_X, extract_text_Y,
      extract_br_empty]
    decide

/-- Witness for C3: the br rule applied at a concrete upper-case tag with
children that are ignored. -/
theorem extractNodeText_br_double_break_witness :
    extractNodeText (.element (str "BR") [(str "class", str "x")]
      [.text (str "ignored")]) = str "\n" :=
  extractNodeText_br_double_break.1 (str "BR") [(str "class", str "x")]
    [.text (str "ignored")] (by decide)

/-- C4 counterexample: with the extraction context the repository actually
uses (the block `card-block` div around the fragment), the fragment
`<span>A</span><span>B</span>` extracts to `"A\n\nB"`, not `"A B"` as the
claim states — the separator is chosen by the parent element's own tag,
not by whether the children are inline. -/
theorem extract_span_fragment_not_space_joined :
    extractNodeText spanFragment = str "A\n\nB" ∧ str "A\n\nB" ≠ str "A B" := by
  constructor
  · unfold spanFragment
    rw [extractNodeText_element]
    simp only [List.map_cons, List.map_nil, extract_span_A, extract_span_B]
    decide
  · decide

/-- C4 (amended): for every non-line-break element the extractor joins the
non-empty child extractions with `"\n\n"` exactly when the element's own
tag is in BLOCK_TAGS and with a single space otherwise, trimming the
result; consequently, inside the block card container both `<p>A</p><p>B</p>`
and `<span>A</span><span>B</span>` yield `"A\n\nB"`, while `"A B"` arises
under an inline parent such as a span. -/
theorem extractNodeText_join_rule :
    (∀ tag attrs cs, lowerAscii tag ≠ str "br" →
      extractNodeText (.element tag attrs cs) =
        trimJs (List.intercalate
          (if lowerAscii tag ∈ BLOCK_TAGS then str "\n\n" else str " ")
          ((cs.map extractNodeText).filter (fun s => s ≠ [])))) ∧
    extractNodeText pFragment = str "A\n\nB" ∧
    extractNodeText spanFragment = str "A\n\nB" ∧
    extractNodeText spanInlineParent = str "A B" := by
  refine ⟨fun tag attrs cs h => by rw [extractNodeText_element, if_neg h], ?_, ?_, ?_⟩
  · unfold pFragment
    rw [extractNodeText_element]
    simp only [List.map_cons, List.map_nil, extract_p_A, extract_p_B]
    decide
  · unfold spanFragment
    rw [extractNodeText_element]
    simp only [List.map_cons, List.map_nil, extract_span_A, extract_span_B]
    decide
  · unfold spanInlineParent
    rw [extractNodeText_element]
    simp only [List.map_cons, List.map_nil, extract_span_A, extract_span_B]
    decide

/-- Witness for C4: the join rule applied at the concrete tag `ul`. -/
theorem extractNodeText_join_rule_witness :
    extractNodeText (.element (str "ul") [] [.text (str "A")]) =
      trimJs (List.intercalate
        (if lowerAscii (str "ul") ∈ BLOCK_TAGS then str "\n\n" else str " ")
        (([HNode.text (str "A")].map extractNodeText).filter (fun s => s ≠ []))) :=
  extractNodeText_join_rule.1 (str "ul") [] [.text (str "A")] (by decide)

/-- C2 counterexample: the decoder is not a single left-to-right pass: the
`&` produced by the `&amp;` substitution is consumed by the later `&lt;`
pass, so `decode("&amp;lt;")` is not `"&lt;"`. -/
theorem decodeHtmlEntities_not_single_pass :
    decodeHtmlEntities (.strV (str "&amp;lt;")) ≠ str "&lt;" := by decide

/-- C2 (amended): the decoder is a fixed-order sequence of global
replacement passes, so text introduced by the earlier `&amp;` substitution
can be decoded again by a later pass: `decode("&amp;lt;") = "<"`. -/
theorem decodeHtmlEntities_sequential_passes :
    decodeHtmlEntities (.strV (str "&amp;lt;")) = str "<" := by decide

/-- C7: on the failing input `&#128512;` the decoder calls
`String.fromCharCode`, which reduces the code point modulo 2^16 (ToUint16),
producing U+F600 instead of the denoted character U+1F600. -/
theorem decodeHtmlEntities_numeric_mod_2_16 :
    decodeHtmlEntities (.strV (str "&#128512;")) = [Char.ofNat (128512 % 65536)] ∧
    decodeHtmlEntities (.strV (str "&#128512;")) ≠ [Char.ofNat 128512] := by decide

/-- C5: the housing-only classifier matches the standalone word "RA" only
at word boundaries: it fires on "Please bring your RA to the lawn" but not
on texts where the letters occur only inside longer words ("grass",
"drama") and no other marker phrase is present. -/
theorem isHousingOnlyEvent_word_boundary :
    isHousingOnlyEvent (str "Please bring your RA to the lawn") = true ∧
    isHousingOnlyEvent (str "the grass is green") = false ∧
    isHousingOnlyEvent (str "There will be drama games") = false := by decide

/-- C6: the category pipeline cleans each label (the word "slash" becomes
" / ", slash spacing and internal whitespace are normalized, ends
trimmed), deduplicates case-insensitively keeping first-seen order and
casing, joins with " / "; and non-string or empty input yields "". -/
theorem extractAriaLabelsAsCategory_pipeline :
    extractCategoryCore
        [str "Lecture slash Presentation", str "lecture / presentation",
         str "Workshop"] = str "Lecture / Presentation / Workshop" ∧
    (∀ f, extractAriaLabelsAsCategory .nullV f = [] ∧
      extractAriaLabelsAsCategory .undefinedV f = [] ∧
      extractAriaLabelsAsCategory (.numV 42) f = [] ∧
      extractAriaLabelsAsCategory (.strV []) f = []) := by
  exact ⟨by decide, fun f => ⟨rfl, rfl, rfl, rfl⟩⟩

/-- C10: `checkFreeFood` is true exactly when `getMatchedKeywords` is
non-empty, and the matched keywords are returned in keyword-list order (a
sublist of `freeFoodKeywords`). -/
theorem checkFreeFood_iff_getMatchedKeywords (text : List Char) :
    (checkFreeFood text = true ↔ getMatchedKeywords text ≠ []) ∧
    (getMatchedKeywords text).Sublist freeFoodKeywords := by
  constructor
  · unfold checkFreeFood getMatchedKeywords
    rw [List.any_eq_true]
    constructor
    · rintro ⟨kw, hmem, hp⟩ hnil
      rw [List.filter_eq_nil_iff] at hnil
      exact hnil kw hmem hp
    · intro hne
      obtain ⟨kw, hkw⟩ := List.exists_mem_of_ne_nil _ hne
      rw [List.mem_filter] at hkw
      exact ⟨kw, hkw.1, hkw.2⟩
  · exact List.filter_sublist _

/-- Helper evaluation: the lower-case anchor is itself left unchanged. -/
theorem remove_anchor_lower :
    removeCopyLinkParents copyLinkAnchorLower = copyLinkAnchorLower := by
  unfold copyLinkAnchorLower
  rw [removeCopyLinkParents_element]
  rfl

theorem remove_p_body :
    removeCopyLinkParents (.element (str "p") [] [.text (str "Body")]) =
      .element (str "p") [] [.text (str "Body")] := by
  rw [removeCopyLinkParents_element]
  have hf : List.filter (fun c => !isCopyLinkParentNode c)
      [HNode.text (str "Body")] = [HNode.text (str "Body")] := rfl
  rw [hf, List.map_cons, List.map_nil, removeCopyLinkParents_text]

theorem remove_div_lower :
    removeCopyLinkParents (.element (str "div") [] [copyLinkAnchorLower]) =
      .element (str "div") [] [copyLinkAnchorLower] := by
  rw [removeCopyLinkParents_element]
  have hf : List.filter (fun c => !isCopyLinkParentNode c)
      [copyLinkAnchorLower] = [copyLinkAnchorLower] := rfl
  rw [hf, List.map_cons, List.map_nil, remove_anchor_lower]

/-- C8 counterexample: an anchor labelled `"copy link to event"` (lower
case) does not match the case-sensitive attribute-substring selector
`a[aria-label*="Copy link"]`, so the pruner leaves the card — anchor and
wrapper included — completely unchanged, where the claim demands removal. -/
theorem removeCopyLinkParents_lowercase_untouched :
    removeCopyLinkParents cardWithLowerCopyLink = cardWithLowerCopyLink := by
  unfold cardWithLowerCopyLink
  rw [removeCopyLinkParents_element]
  have hf : List.filter (fun c => !isCopyLinkParentNode c)
      [HNode.text (str "Details"), .element (str "div") [] [copyLinkAnchorLower],
       .element (str "p") [] [.text (str "Body")]] =
      [HNode.text (str "Details"), .element (str "div") [] [copyLinkAnchorLower],
       .element (str "p") [] [.text (str "Body")]] := rfl
  rw [hf, List.map_cons, List.map_cons, List.map_cons, List.map_nil,
    removeCopyLinkParents_text, remove_div_lower, remove_p_body]

/-- C8 (amended): the pruner removes every anchor whose accessible label
contains `"Copy link"` matched case-sensitively, together with the
anchor's immediate structural parent (here the wrapper div), and the
absence of any removal target is not an error: such trees are returned
unchanged. -/
theorem removeCopyLinkParents_case_sensitive :
    removeCopyLinkParents cardWithCopyLink =
      .element (str "div") []
        [.text (str "Details"), .element (str "p") [] [.text (str "Body")]] ∧
    (∀ t, noRemovalTargets t = true → removeCopyLinkParents t = t) := by
  constructor
  · unfold cardWithCopyLink
    rw [removeCopyLinkParents_element]
    have hf : List.filter (fun c => !isCopyLinkParentNode c)
        [HNode.text (str "Details"), .element (str "div") [] [copyLinkAnchorUpper],
         .element (str "p") [] [.text (str "Body")]] =
        [HNode.text (str "Details"), .element (str "p") [] [.text (str "Body")]] := rfl
    rw [hf, List.map_cons, List.map_cons, List.map_nil,
      removeCopyLinkParents_text, remove_p_body]
  · intro t
    induction t using removeCopyLinkParents.induct with
    | case1 r => intro _; rw [removeCopyLinkParents_text]
    | case2 tag attrs cs ih =>
      intro ht
      rw [noRemovalTargets_element, Bool.and_eq_true] at ht
      have hfilter : cs.filter (fun c => !isCopyLinkParentNode c) = cs :=
        List.filter_eq_self.mpr (List.all_eq_true.mp ht.1)
      rw [removeCopyLinkParents_element, hfilter]
      have hmap : cs.map removeCopyLinkParents = cs.map id := by
        apply List.map_congr_left
        intro c hc
        exact ih ⟨c, by rw [hfilter]; exact hc⟩ (List.all_eq_true.mp ht.2 c hc)
      rw [hmap, List.map_id]

/-- Witness for C8: the no-removal-target clause applied to a plain text
node. -/
theorem removeCopyLinkParents_case_sensitive_witness :
    removeCopyLinkParents (.text (str "plain")) = .text (str "plain") :=
  removeCopyLinkParents_case_sensitive.2 (.text (str "plain"))
    (noRemovalTargets_text (str "plain"))

/-- Helper evaluation: the cleaned date text of the TBD fragment. -/
theorem parseDateInfo_tbd : parseDateInfoFromNode tbdFragment = str "TBD" := by
  simp only [parseDateInfoFromNode, tbdFragment, List.map_cons, List.map_nil,
    collectPs_text, nodeRawText_element, nodeRawText_text]
  decide

/-- C9: when the structured date parse fails on the cleaned date text,
`parseEngageSingleDate` returns an absent instant and the cleaned raw text
as display, without raising; in particular a fragment whose text is "TBD"
yields an absent instant and display "TBD". -/
theorem parseEngageSingleDate_fallback :
    (∀ dateParse fmt root, dateParse (parseDateInfoFromNode root) = none →
      parseEngageSingleDate dateParse fmt root = (none, parseDateInfoFromNode root)) ∧
    (∀ dateParse fmt, dateParse (str "TBD") = none →
      parseEngageSingleDate dateParse fmt tbdFragment = (none, str "TBD")) := by
  have hgen : ∀ dateParse fmt root, dateParse (parseDateInfoFromNode root) = none →
      parseEngageSingleDate dateParse fmt root = (none, parseDateInfoFromNode root) := by
    intro dp fmt root h
    simp only [parseEngageSingleDate]
    by_cases hc : parseDateInfoFromNode root = []
    · rw [if_pos hc]
    · rw [if_neg hc, h]
  refine ⟨hgen, fun dp fmt h => ?_⟩
  have hres := hgen dp fmt tbdFragment (by rw [parseDateInfo_tbd]; exact h)
  rw [parseDateInfo_tbd] at hres
  exact hres

/-- Witness for C9: instantiated with a parser that always fails. -/
theorem parseEngageSingleDate_fallback_witness :
    parseEngageSingleDate (fun _ => none) (fun _ => []) tbdFragment =
      (none, str "TBD") :=
  parseEngageSingleDate_fallback.2 (fun _ => none) (fun _ => []) rfl

/-- Boolean conjunction elimination, in the form used repeatedly below. -/
theorem bandE {a b : Bool} (h : (a && b) = true) : a = true ∧ b = true := by
  simp only [Bool.and_eq_true] at h
  exact h

theorem bandI {a b : Bool} (h₁ : a = true) (h₂ : b = true) : (a && b) = true := by
  simp [h₁, h₂]

/-- Structural facts about the adjacency invariants, used to prove
idempotence of the whitespace pipeline of `processDescriptionText`. -/
theorem pairsOK_tail {R : Char → Char → Bool} {a : Char} {l : List Char}
    (h : pairsOK R (a :: l) = true) : pairsOK R l = true := by
  match l with
  | [] => rfl
  | b :: t => exact (bandE h).2

theorem pairsOK_cons_of {R : Char → Char → Bool} {a : Char} {l : List Char}
    (h : pairsOK R l = true) (hh : ∀ b, l.head? = some b → R a b = true) :
    pairsOK R (a :: l) = true := by
  match l with
  | [] => rfl
  | b :: t =>
    unfold pairsOK
    exact bandI (hh b rfl) h

theorem pairsOK_head {R : Char → Char → Bool} {a b : Char} {l : List Char}
    (h : pairsOK R (a :: b :: l) = true) : R a b = true :=
  (bandE h).1

theorem pairsOK_append_right {R : Char → Char → Bool} {l₁ l₂ : List Char}
    (h : pairsOK R (l₁ ++ l₂) = true) : pairsOK R l₂ = true := by
  induction l₁ with
  | nil => exact h
  | cons a t ih => exact ih (pairsOK_tail h)

theorem pairsOK_append_left {R : Char → Char → Bool} {l₁ l₂ : List Char}
    (h : pairsOK R (l₁ ++ l₂) = true) : pairsOK R l₁ = true := by
  induction l₁ with
  | nil => rfl
  | cons a t ih =>
    match t with
    | [] => rfl
    | b :: u =>
      have hab : R a b = true := pairsOK_head h
      have hrest := ih (pairsOK_tail h)
      unfold pairsOK
      exact bandI hab hrest

theorem pairsOK_glue {R : Char → Char → Bool} {l₁ l₂ : List Char} {m : Char}
    (h₁ : pairsOK R (l₁ ++ [m]) = true) (h₂ : pairsOK R (m :: l₂) = true) :
    pairsOK R (l₁ ++ m :: l₂) = true := by
  induction l₁ with
  | nil => exact h₂
  | cons a t ih =>
    match t with
    | [] =>
      have ham : R a m = true := pairsOK_head h₁
      show pairsOK R (a :: m :: l₂) = true
      unfold pairsOK
      exact bandI ham h₂
    | b :: u =>
      have hab : R a b = true := pairsOK_head h₁
      have hrest := ih (pairsOK_tail h₁)
      unfold pairsOK
      exact bandI hab hrest

theorem noNl3_tail {a : Char} {l : List Char} (h : noNl3 (a :: l) = true) :
    noNl3 l = true := by
  match l with
  | [] => rfl
  | [b] => rfl
  | b :: c :: t => exact (bandE h).2

theorem noNl3_append_right {l₁ l₂ : List Char}
    (h : noNl3 (l₁ ++ l₂) = true) : noNl3 l₂ = true := by
  induction l₁ with
  | nil => exact h
  | cons a t ih => exact ih (noNl3_tail h)

theorem noNl3_append_left {l₁ l₂ : List Char}
    (h : noNl3 (l₁ ++ l₂) = true) : noNl3 l₁ = true := by
  induction l₁ with
  | nil => rfl
  | cons a t ih =>
    match t with
    | [] => rfl
    | [b] => rfl
    | b :: c :: u =>
      have hrest : noNl3 (b :: c :: u) = true := ih (noNl3_tail h)
      have h' : noNl3 (a :: b :: c :: (u ++ l₂)) = true := h
      unfold noNl3 at h' ⊢
      exact bandI (bandE h').1 hrest

theorem noNl3_cons₂ {a b : Char} {l : List Char} (hb : (b == '\n') = false)
    (h : noNl3 (b :: l) = true) : noNl3 (a :: b :: l) = true := by
  match l with
  | [] => rfl
  | c :: t =>
    unfold noNl3
    refine bandI ?_ h
    simp [hb]

theorem noNl3_cons_of_ne {a : Char} {l : List Char} (ha : (a == '\n') = false)
    (h : noNl3 l = true) : noNl3 (a :: l) = true := by
  match l with
  | [] => rfl
  | [b] => rfl
  | b :: c :: t =>
    unfold noNl3
    refine bandI ?_ h
    simp [ha]

theorem noNl3_short {l : List Char} (h : l.length ≤ 2) : noNl3 l = true := by
  match l with
  | [] => rfl
  | [a] => rfl
  | [a, b] => rfl
  | a :: b :: c :: t => simp at h

/-- Head of a `dropWhile` result never satisfies the dropped predicate. -/
theorem head_dropWhile_false {p : Char → Bool} {l : List Char} {c : Char}
    (h : (l.dropWhile p).head? = some c) : p c = false := by
  induction l with
  | nil => simp at h
  | cons a t ih =>
    rw [List.dropWhile_cons] at h
    by_cases hp : p a = true
    · exact ih (by simpa [hp] using h)
    · simp only [Bool.not_eq_true] at hp
      simp [hp] at h
      exact h ▸ hp

/-- `dropWhile` is the identity when the head does not satisfy `p`. -/
theorem dropWhile_eq_self_of_head {p : Char → Bool} {l : List Char}
    (h : ∀ c, l.head? = some c → p c = false) : l.dropWhile p = l := by
  match l with
  | [] => rfl
  | a :: t =>
    rw [List.dropWhile_cons]
    simp [h a rfl]

/-- Decomposition: a string is a whitespace prefix plus its `dropWs`. -/
theorem dropWs_decomp (s : List Char) : ∃ l₁, s = l₁ ++ dropWs s := by
  obtain ⟨pre, hpre⟩ := List.dropWhile_suffix (l := s) isJsWs
  exact ⟨pre, hpre.symm⟩

/-- Decomposition: a string is its `rdropWs` plus a whitespace suffix. -/
theorem rdropWs_decomp (s : List Char) : ∃ l₂, s = rdropWs s ++ l₂ := by
  obtain ⟨pre, hpre⟩ := List.dropWhile_suffix (l := s.reverse) isJsWs
  refine ⟨pre.reverse, ?_⟩
  conv_lhs => rw [← List.reverse_reverse s, ← hpre]
  rw [List.reverse_append]
  rfl

/-- Decomposition: `trimJs s` is an infix of `s`. -/
theorem trimJs_decomp (s : List Char) : ∃ l₁ l₂, s = l₁ ++ trimJs s ++ l₂ := by
  obtain ⟨l₁, h₁⟩ := dropWs_decomp s
  obtain ⟨l₂, h₂⟩ := rdropWs_decomp (dropWs s)
  refine ⟨l₁, l₂, ?_⟩
  have ht : trimJs s = rdropWs (dropWs s) := rfl
  rw [ht, List.append_assoc, ← h₂, ← h₁]

/-- Adjacency invariants survive trimming (they are infix-closed). -/
theorem pairsOK_trimJs {R : Char → Char → Bool} {s : List Char}
    (h : pairsOK R s = true) : pairsOK R (trimJs s) = true := by
  obtain ⟨l₁, l₂, hs⟩ := trimJs_decomp s
  rw [hs, List.append_assoc] at h
  exact pairsOK_append_left (pairsOK_append_right h)

theorem noNl3_trimJs {s : List Char} (h : noNl3 s = true) :
    noNl3 (trimJs s) = true := by
  obtain ⟨l₁, l₂, hs⟩ := trimJs_decomp s
  rw [hs, List.append_assoc] at h
  exact noNl3_append_left (noNl3_append_right h)

theorem mem_trimJs {s : List Char} {c : Char} (h : c ∈ trimJs s) : c ∈ s := by
  obtain ⟨l₁, l₂, hs⟩ := trimJs_decomp s
  rw [hs]
  simp [h]

/-- The head of a non-empty prefix is the head of the whole list. -/
theorem head_of_front_part {y suf u : List Char} {c : Char} (h : y ++ suf = u)
    (hy : y.head? = some c) : u.head? = some c := by
  match y with
  | [] => simp at hy
  | a :: t =>
    rw [← h]
    simpa using hy

/-- JS `trim` is idempotent. -/
theorem trimJs_idem (s : List Char) : trimJs (trimJs s) = trimJs s := by
  have hu : ∀ c, (dropWs s).head? = some c → isJsWs c = false :=
    fun c hc => head_dropWhile_false hc
  have hdrop : dropWs (rdropWs (dropWs s)) = rdropWs (dropWs s) := by
    apply dropWhile_eq_self_of_head
    intro c hc
    obtain ⟨suf, hsuf⟩ := rdropWs_decomp (dropWs s)
    exact hu c (head_of_front_part hsuf.symm hc)
  have hrev : (rdropWs (dropWs s)).reverse = (dropWs s).reverse.dropWhile isJsWs := by
    simp [rdropWs]
  have hrd : rdropWs (rdropWs (dropWs s)) = rdropWs (dropWs s) := by
    show ((rdropWs (dropWs s)).reverse.dropWhile isJsWs).reverse = rdropWs (dropWs s)
    rw [hrev, dropWhile_eq_self_of_head (fun c hc => head_dropWhile_false hc)]
    rfl
  show rdropWs (dropWs (rdropWs (dropWs s))) = rdropWs (dropWs s)
  rw [hdrop, hrd]

/-- Character-class facts. -/
theorem isST_cases {c : Char} (h : isST c = true) : c = ' ' ∨ c = '\t' := by
  simpa [isST] using h

theorem isST_beq_nl {c : Char} (h : isST c = true) : (c == '\n') = false := by
  rcases isST_cases h with h' | h' <;> subst h' <;> decide

theorem isST_ne_nl {c : Char} (h : isST c = true) : c ≠ '\n' := by
  rcases isST_cases h with h' | h' <;> subst h' <;> decide

/-- Unfolding equations for the run-collapsing scanner. -/
theorem collapseRunsAux_cons_inRun {p : Char → Bool} {r c : Char} {t : List Char}
    (h : p c = true) :
    collapseRunsAux p r true (c :: t) = collapseRunsAux p r true t := by
  simp [collapseRunsAux, h]

theorem collapseRunsAux_cons_start {p : Char → Bool} {r c : Char} {t : List Char}
    (h : p c = true) :
    collapseRunsAux p r false (c :: t) = r :: collapseRunsAux p r true t := by
  simp [collapseRunsAux, h]

theorem collapseRunsAux_cons_no {p : Char → Bool} {r c : Char} {b : Bool}
    {t : List Char} (h : p c = false) :
    collapseRunsAux p r b (c :: t) = c :: collapseRunsAux p r false t := by
  simp [collapseRunsAux, h]

/-- In-run output of `collapseST` starts with a non-space/tab character. -/
theorem collapseST_head_true {t : List Char} {d : Char}
    (h : (collapseRunsAux isST ' ' true t).head? = some d) : isST d = false := by
  induction t with
  | nil => simp [collapseRunsAux] at h
  | cons c t ih =>
    by_cases hc : isST c = true
    · rw [collapseRunsAux_cons_inRun hc] at h
      exact ih h
    · have hc' : isST c = false := by simpa using hc
      rw [collapseRunsAux_cons_no hc'] at h
      simp only [List.head?_cons, Option.some.injEq] at h
      exact h ▸ hc'

/-- Characters of `collapseST` output: the replacement space or a
non-space/tab character of the input. -/
theorem collapseST_mem {b : Bool} {s : List Char} {c : Char}
    (h : c ∈ collapseRunsAux isST ' ' b s) :
    c = ' ' ∨ (c ∈ s ∧ isST c = false) := by
  induction s generalizing b with
  | nil => simp [collapseRunsAux] at h
  | cons a t ih =>
    by_cases ha : isST a = true
    · cases b with
      | true =>
        rw [collapseRunsAux_cons_inRun ha] at h
        rcases ih h with h' | h'
        · exact Or.inl h'
        · exact Or.inr ⟨List.mem_cons_of_mem _ h'.1, h'.2⟩
      | false =>
        rw [collapseRunsAux_cons_start ha] at h
        rcases List.mem_cons.mp h with h' | h'
        · exact Or.inl h'
        · rcases ih h' with h'' | h''
          · exact Or.inl h''
          · exact Or.inr ⟨List.mem_cons_of_mem _ h''.1, h''.2⟩
    · have ha' : isST a = false := by simpa using ha
      rw [collapseRunsAux_cons_no ha'] at h
      rcases List.mem_cons.mp h with h' | h'
      · exact Or.inr ⟨h' ▸ List.mem_cons_self a t, h' ▸ ha'⟩
      · rcases ih h' with h'' | h''
        · exact Or.inl h''
        · exact Or.inr ⟨List.mem_cons_of_mem _ h''.1, h''.2⟩

/-- `collapseST` output has no two adjacent space/tab characters. -/
theorem collapseST_pairs (b : Bool) (s : List Char) :
    pairsOK okRun (collapseRunsAux isST ' ' b s) = true := by
  induction s generalizing b with
  | nil => rfl
  | cons a t ih =>
    by_cases ha : isST a = true
    · cases b with
      | true =>
        rw [collapseRunsAux_cons_inRun ha]
        exact ih true
      | false =>
        rw [collapseRunsAux_cons_start ha]
        refine pairsOK_cons_of (ih true) ?_
        intro y hy
        have hns := collapseST_head_true hy
        simp [okRun, hns]
    · have ha' : isST a = false := by simpa using ha
      rw [collapseRunsAux_cons_no ha']
      refine pairsOK_cons_of (ih false) ?_
      intro y hy
      simp [okRun, ha']

/-- In-run and normal modes agree when the head is not a space/tab. -/
theorem collapseST_true_eq_false {t : List Char}
    (h : ∀ d, t.head? = some d → isST d = false) :
    collapseRunsAux isST ' ' true t = collapseRunsAux isST ' ' false t := by
  match t with
  | [] => rfl
  | d :: u =>
    have hd := h d rfl
    rw [collapseRunsAux_cons_no hd, collapseRunsAux_cons_no hd]

/-- `collapseST` is the identity on tab-free strings with no adjacent
space/tab pair. -/
theorem collapseST_id {s : List Char} (htab : '\t' ∉ s)
    (hp : pairsOK okRun s = true) : collapseST s = s := by
  unfold collapseST
  induction s with
  | nil => rfl
  | cons a t ih =>
    have htab' : '\t' ∉ t := fun hm => htab (List.mem_cons_of_mem _ hm)
    by_cases ha : isST a = true
    · have haSp : a = ' ' := by
        rcases isST_cases ha with h' | h'
        · exact h'
        · exact absurd (h' ▸ List.mem_cons_self a t) htab
      rw [collapseRunsAux_cons_start ha]
      have hhead : ∀ d, t.head? = some d → isST d = false := by
        intro d hd
        match t, hd with
        | d :: u, rfl =>
          have := pairsOK_head hp
          simp only [okRun, ha, Bool.true_and, Bool.not_eq_true'] at this
          exact this
      rw [collapseST_true_eq_false hhead, ih htab' (pairsOK_tail hp), haSp]
    · have ha' : isST a = false := by simpa using ha
      rw [collapseRunsAux_cons_no ha', ih htab' (pairsOK_tail hp)]

theorem isST_nl : isST '\n' = false := by decide

/-- Unfolding equations for the newline-trimming scanner. -/
theorem trimNlAux_cons_nl {pend : List Char} {b : Bool} {t : List Char} :
    trimNlAux pend b ('\n' :: t) = '\n' :: trimNlAux [] true t := by
  simp [trimNlAux]

theorem trimNlAux_cons_st_true {pend : List Char} {c : Char} {t : List Char}
    (h : isST c = true) :
    trimNlAux pend true (c :: t) = trimNlAux [] true t := by
  simp [trimNlAux, isST_ne_nl h, h]

theorem trimNlAux_cons_st_false {pend : List Char} {c : Char} {t : List Char}
    (h : isST c = true) :
    trimNlAux pend false (c :: t) = trimNlAux (pend ++ [c]) false t := by
  simp [trimNlAux, isST_ne_nl h, h]

theorem trimNlAux_cons_other {pend : List Char} {c : Char} {b : Bool}
    {t : List Char} (h1 : c ≠ '\n') (h2 : isST c = false) :
    trimNlAux pend b (c :: t) = pend ++ c :: trimNlAux [] false t := by
  simp [trimNlAux, h1, h2]

/-- Characters of the newline-trimming output come from the pending run,
the input, or are a newline. -/
theorem trimNl_mem {s : List Char} {pend : List Char} {b : Bool} {c : Char}
    (h : c ∈ trimNlAux pend b s) : c ∈ pend ∨ c ∈ s ∨ c = '\n' := by
  induction s generalizing pend b with
  | nil => exact Or.inl h
  | cons a t ih =>
    by_cases ha : a = '\n'
    · subst ha
      rw [trimNlAux_cons_nl] at h
      rcases List.mem_cons.mp h with h' | h'
      · exact Or.inr (Or.inr h')
      · rcases ih h' with h'' | h'' | h''
        · simp at h''
        · exact Or.inr (Or.inl (List.mem_cons_of_mem _ h''))
        · exact Or.inr (Or.inr h'')
    · by_cases hst : isST a = true
      · cases b with
        | true =>
          rw [trimNlAux_cons_st_true hst] at h
          rcases ih h with h'' | h'' | h''
          · simp at h''
          · exact Or.inr (Or.inl (List.mem_cons_of_mem _ h''))
          · exact Or.inr (Or.inr h'')
        | false =>
          rw [trimNlAux_cons_st_false hst] at h
          rcases ih h with h'' | h'' | h''
          · rcases List.mem_append.mp h'' with h3 | h3
            · exact Or.inl h3
            · simp at h3
              exact Or.inr (Or.inl (h3 ▸ List.mem_cons_self a t))
          · exact Or.inr (Or.inl (List.mem_cons_of_mem _ h''))
          · exact Or.inr (Or.inr h'')
      · have hst' : isST a = false := by simpa using hst
        rw [trimNlAux_cons_other ha hst'] at h
        rcases List.mem_append.mp h with h' | h'
        · exact Or.inl h'
        · rcases List.mem_cons.mp h' with h'' | h''
          · exact Or.inr (Or.inl (h'' ▸ List.mem_cons_self a t))
          · rcases ih h'' with h3 | h3 | h3
            · simp at h3
            · exact Or.inr (Or.inl (List.mem_cons_of_mem _ h3))
            · exact Or.inr (Or.inr h3)

/-- After an emitted newline the output never starts with a space/tab. -/
theorem trimNl_head_true {t : List Char} {d : Char}
    (h : (trimNlAux [] true t).head? = some d) : isST d = false := by
  induction t with
  | nil => simp [trimNlAux] at h
  | cons a t ih =>
    by_cases ha : a = '\n'
    · subst ha
      rw [trimNlAux_cons_nl] at h
      simp only [List.head?_cons, Option.some.injEq] at h
      exact h ▸ isST_nl
    · by_cases hst : isST a = true
      · rw [trimNlAux_cons_st_true hst] at h
        exact ih h
      · have hst' : isST a = false := by simpa using hst
        rw [trimNlAux_cons_other ha hst'] at h
        simp only [List.nil_append, List.head?_cons, Option.some.injEq] at h
        exact h ▸ hst'

/-- A non-space/tab, non-newline character is `okNlSp`-compatible on the
left with anything. -/
theorem okNlSp_left {c : Char} (h1 : isST c = false) (h2 : (c == '\n') = false) :
    ∀ y, okNlSp c y = true := by
  intro y
  simp [okNlSp, h1, h2]

/-- An all-space/tab run satisfies the newline-spacing invariant. -/
theorem pairsOK_allST {pend : List Char}
    (h : ∀ x ∈ pend, isST x = true) : pairsOK okNlSp pend = true := by
  induction pend with
  | nil => rfl
  | cons p rest ih =>
    refine pairsOK_cons_of (ih fun x hx => h x (List.mem_cons_of_mem _ hx)) ?_
    intro b hb
    have hbmem : b ∈ rest := by
      match rest, hb with
      | r :: u, hb =>
        simp only [List.head?_cons, Option.some.injEq] at hb
        exact hb ▸ List.mem_cons_self r u
    have hp := h p (List.mem_cons_self _ _)
    have hbst := h b (List.mem_cons_of_mem _ hbmem)
    simp [okNlSp, isST_beq_nl hbst, isST_beq_nl hp]

/-- An all-space/tab run followed by a non-newline character satisfies the
newline-spacing invariant. -/
theorem pairsOK_allST_snoc {pend : List Char} {c : Char}
    (h : ∀ x ∈ pend, isST x = true) (hc : (c == '\n') = false) :
    pairsOK okNlSp (pend ++ [c]) = true := by
  induction pend with
  | nil => rfl
  | cons p rest ih =>
    have hp := h p (List.mem_cons_self _ _)
    refine pairsOK_cons_of (ih fun x hx => h x (List.mem_cons_of_mem _ hx)) ?_
    intro y hy
    cases rest with
    | nil =>
      have hy' : c = y := by simpa using hy
      subst hy'
      simp [okNlSp, hc, isST_beq_nl hp]
    | cons q u =>
      have hy' : q = y := by simpa using hy
      subst hy'
      have hq := h q (List.mem_cons_of_mem _ (List.mem_cons_self _ _))
      simp [okNlSp, isST_beq_nl hq, isST_beq_nl hp]

/-- The newline-trimming pass establishes the no-space-next-to-newline
invariant, for any all-space/tab pending run. -/
theorem trimNl_pairsNlSp (s : List Char) : ∀ (pend : List Char) (b : Bool),
    (∀ x ∈ pend, isST x = true) →
    pairsOK okNlSp (trimNlAux pend b s) = true := by
  induction s with
  | nil => intro pend b h; exact pairsOK_allST h
  | cons a t ih =>
    intro pend b h
    by_cases ha : a = '\n'
    · subst ha
      rw [trimNlAux_cons_nl]
      refine pairsOK_cons_of (ih [] true (by simp)) ?_
      intro y hy
      have hns := trimNl_head_true hy
      simp [okNlSp, hns, isST_nl]
    · by_cases hst : isST a = true
      · cases b with
        | true =>
          rw [trimNlAux_cons_st_true hst]
          exact ih [] true (by simp)
        | false =>
          rw [trimNlAux_cons_st_false hst]
          refine ih (pend ++ [a]) false ?_
          intro x hx
          rcases List.mem_append.mp hx with h' | h'
          · exact h x h'
          · simp at h'
            exact h' ▸ hst
      · have hst' : isST a = false := by simpa using hst
        rw [trimNlAux_cons_other ha hst']
        refine pairsOK_glue (pairsOK_allST_snoc h (beq_eq_false_iff_ne.mpr ha)) ?_
        refine pairsOK_cons_of (ih [] false (by simp)) ?_
        intro y hy
        exact okNlSp_left hst' (beq_eq_false_iff_ne.mpr ha) y

/-- The newline-trimming pass preserves the no-adjacent-space/tab
invariant. -/
theorem trimNl_pairsRun (s : List Char) : ∀ (pend : List Char) (b : Bool),
    (∀ x ∈ pend, isST x = true) →
    pairsOK okRun (pend ++ s) = true →
    pairsOK okRun (trimNlAux pend b s) = true := by
  induction s with
  | nil =>
    intro pend b h hp
    rw [List.append_nil] at hp
    exact hp
  | cons a t ih =>
    intro pend b h hp
    have hsplit : pend ++ a :: t = (pend ++ [a]) ++ t := by simp
    by_cases ha : a = '\n'
    · subst ha
      rw [trimNlAux_cons_nl]
      refine pairsOK_cons_of (ih [] true (by simp) ?_) ?_
      · rw [hsplit] at hp
        exact pairsOK_append_right hp
      · intro y hy
        simp [okRun, isST_nl]
    · by_cases hst : isST a = true
      · cases b with
        | true =>
          rw [trimNlAux_cons_st_true hst]
          refine ih [] true (by simp) ?_
          rw [hsplit] at hp
          exact pairsOK_append_right hp
        | false =>
          rw [trimNlAux_cons_st_false hst]
          refine ih (pend ++ [a]) false ?_ ?_
          · intro x hx
            rcases List.mem_append.mp hx with h' | h'
            · exact h x h'
            · simp at h'
              exact h' ▸ hst
          · rw [← hsplit]
            exact hp
      · have hst' : isST a = false := by simpa using hst
        rw [trimNlAux_cons_other ha hst']
        refine pairsOK_glue ?_ ?_
        · rw [hsplit] at hp
          exact pairsOK_append_left hp
        · refine pairsOK_cons_of (ih [] false (by simp) ?_) ?_
          · rw [hsplit] at hp
            exact pairsOK_append_right hp
          · intro y hy
            simp [okRun, hst']

/-- A non-empty all-space/tab run directly before a newline violates the
newline-spacing invariant. -/
theorem pend_before_nl_absurd {t : List Char} : ∀ {pend : List Char},
    (∀ x ∈ pend, isST x = true) → pend ≠ [] →
    pairsOK okNlSp (pend ++ '\n' :: t) = true → False := by
  intro pend
  induction pend with
  | nil => intro _ hne _; exact hne rfl
  | cons p rest ih =>
    intro h _ hp
    cases rest with
    | nil =>
      have := pairsOK_head (hp : pairsOK okNlSp (p :: '\n' :: t) = true)
      have hpst := h p (List.mem_cons_self _ _)
      simp [okNlSp, hpst] at this
    | cons q u =>
      exact ih (fun x hx => h x (List.mem_cons_of_mem _ hx)) (by simp)
        (pairsOK_tail hp)

/-- After-newline and normal modes agree when the head is not a space/tab
(with an empty pending run). -/
theorem trimNl_true_eq_false {t : List Char}
    (h : ∀ d, t.head? = some d → isST d = false) :
    trimNlAux [] true t = trimNlAux [] false t := by
  match t with
  | [] => rfl
  | d :: u =>
    by_cases hd : d = '\n'
    · subst hd
      rw [trimNlAux_cons_nl, trimNlAux_cons_nl]
    · have hd' := h d rfl
      rw [trimNlAux_cons_other hd hd', trimNlAux_cons_other hd hd']

/-- The newline-trimming pass is the identity on strings satisfying the
no-space-next-to-newline invariant. -/
theorem trimNl_id_aux (s : List Char) : ∀ (pend : List Char),
    (∀ x ∈ pend, isST x = true) →
    pairsOK okNlSp (pend ++ s) = true →
    trimNlAux pend false s = pend ++ s := by
  induction s with
  | nil =>
    intro pend _ _
    rw [List.append_nil]
    rfl
  | cons a t ih =>
    intro pend h hp
    have hsplit : pend ++ a :: t = (pend ++ [a]) ++ t := by simp
    by_cases ha : a = '\n'
    · subst ha
      have hpend : pend = [] := by
        by_contra hne
        exact pend_before_nl_absurd h hne hp
      subst hpend
      rw [trimNlAux_cons_nl]
      have hhead : ∀ d, t.head? = some d → isST d = false := by
        intro d hd
        cases t with
        | nil => simp at hd
        | cons e u =>
          have he : e = d := by simpa using hd
          subst he
          have hok := pairsOK_head (hp : pairsOK okNlSp ('\n' :: e :: u) = true)
          have hok' : (!(isST '\n' && (e == '\n')) && !(('\n' == '\n') && isST e)) = true := hok
          have h2 := (bandE hok').2
          simpa using h2
      rw [trimNl_true_eq_false hhead, ih [] (by simp) (pairsOK_tail hp)]
      simp
    · by_cases hst : isST a = true
      · rw [trimNlAux_cons_st_false hst]
        have h' : ∀ x ∈ pend ++ [a], isST x = true := by
          intro x hx
          rcases List.mem_append.mp hx with h'' | h''
          · exact h x h''
          · simp at h''
            exact h'' ▸ hst
        have hp' : pairsOK okNlSp ((pend ++ [a]) ++ t) = true := by
          rw [← hsplit]
          exact hp
        rw [ih (pend ++ [a]) h' hp']
        simp
      · have hst' : isST a = false := by simpa using hst
        rw [trimNlAux_cons_other ha hst']
        rw [ih [] (by simp) (by rw [hsplit] at hp; exact pairsOK_append_right hp)]
        simp

/-- Unfolding equations for the newline-run scanner. -/
theorem collapseNl3Aux_cons_nl {n : Nat} {t : List Char} :
    collapseNl3Aux n ('\n' :: t) = collapseNl3Aux (n + 1) t := by
  simp [collapseNl3Aux]

theorem collapseNl3Aux_cons {n : Nat} {c : Char} {t : List Char} (h : c ≠ '\n') :
    collapseNl3Aux n (c :: t) =
      List.replicate (min n 2) '\n' ++ c :: collapseNl3Aux 0 t := by
  simp [collapseNl3Aux, h]

/-- Characters of the newline-run output: a newline or an input character. -/
theorem collapseNl3_mem {t : List Char} {c : Char} : ∀ {n : Nat},
    c ∈ collapseNl3Aux n t → c = '\n' ∨ c ∈ t := by
  induction t with
  | nil =>
    intro n h
    exact Or.inl (List.eq_of_mem_replicate h)
  | cons a u ih =>
    intro n h
    by_cases ha : a = '\n'
    · subst ha
      rw [collapseNl3Aux_cons_nl] at h
      rcases ih h with h' | h'
      · exact Or.inl h'
      · exact Or.inr (List.mem_cons_of_mem _ h')
    · rw [collapseNl3Aux_cons ha] at h
      rcases List.mem_append.mp h with h' | h'
      · exact Or.inl (List.eq_of_mem_replicate h')
      · rcases List.mem_cons.mp h' with h'' | h''
        · exact Or.inr (h'' ▸ List.mem_cons_self a u)
        · rcases ih h'' with h3 | h3
          · exact Or.inl h3
          · exact Or.inr (List.mem_cons_of_mem _ h3)

/-- With a positive pending count the newline-run output starts with a
newline. -/
theorem collapseNl3_head_pos {u : List Char} : ∀ {n : Nat}, 1 ≤ n →
    (collapseNl3Aux n u).head? = some '\n' := by
  induction u with
  | nil =>
    intro n hn
    show (List.replicate (min n 2) '\n').head? = some '\n'
    obtain ⟨k, hk⟩ : ∃ k, min n 2 = k + 1 := ⟨min n 2 - 1, by omega⟩
    rw [hk, List.replicate_succ]
    rfl
  | cons a u ih =>
    intro n hn
    by_cases ha : a = '\n'
    · subst ha
      rw [collapseNl3Aux_cons_nl]
      exact ih (by omega)
    · rw [collapseNl3Aux_cons ha]
      obtain ⟨k, hk⟩ : ∃ k, min n 2 = k + 1 := ⟨min n 2 - 1, by omega⟩
      rw [hk, List.replicate_succ]
      rfl

/-- With a zero pending count the newline-run output keeps the head. -/
theorem collapseNl3_head_zero {u : List Char} :
    (collapseNl3Aux 0 u).head? = u.head? := by
  cases u with
  | nil => rfl
  | cons a v =>
    by_cases ha : a = '\n'
    · subst ha
      rw [collapseNl3Aux_cons_nl, collapseNl3_head_pos (by omega)]
      rfl
    · rw [collapseNl3Aux_cons ha]
      simp

/-- Replicated newlines satisfy any reflexive-at-newline pair relation. -/
theorem pairsOK_replicate_nl {R : Char → Char → Bool}
    (hR : R '\n' '\n' = true) : ∀ k, pairsOK R (List.replicate k '\n') = true := by
  intro k
  induction k with
  | zero => rfl
  | succ k ih =>
    rw [List.replicate_succ]
    refine pairsOK_cons_of ih ?_
    intro y hy
    cases k with
    | zero => simp [List.replicate] at hy
    | succ k' =>
      rw [List.replicate_succ] at hy
      have : '\n' = y := by simpa using hy
      exact this ▸ hR

theorem pairsOK_replicate_last {R : Char → Char → Bool} {x c : Char} :
    ∀ {k : Nat}, 1 ≤ k →
    pairsOK R (List.replicate k x ++ [c]) = true → R x c = true := by
  intro k
  induction k with
  | zero => intro hk; omega
  | succ k ih =>
    intro _ h
    rw [List.replicate_succ] at h
    cases k with
    | zero => exact pairsOK_head h
    | succ k' =>
      refine ih (by omega) ?_
      exact pairsOK_tail h

theorem pairsOK_replicate_with_last {R : Char → Char → Bool} {x c : Char}
    (hR : R x x = true) (hc : R x c = true) :
    ∀ k, pairsOK R (List.replicate k x ++ [c]) = true := by
  intro k
  induction k with
  | zero => rfl
  | succ k ih =>
    rw [List.replicate_succ]
    refine pairsOK_cons_of ih ?_
    intro y hy
    cases k with
    | zero =>
      have : c = y := by simpa using hy
      exact this ▸ hc
    | succ k' =>
      rw [List.replicate_succ] at hy
      have : x = y := by simpa using hy
      exact this ▸ hR

/-- The newline-run pass preserves any adjacency invariant that accepts a
newline pair. -/
theorem collapseNl3_pairs {R : Char → Char → Bool} (hR : R '\n' '\n' = true)
    (t : List Char) : ∀ n, pairsOK R (List.replicate n '\n' ++ t) = true →
    pairsOK R (collapseNl3Aux n t) = true := by
  induction t with
  | nil =>
    intro n _
    exact pairsOK_replicate_nl hR _
  | cons a u ih =>
    intro n hp
    by_cases ha : a = '\n'
    · subst ha
      rw [collapseNl3Aux_cons_nl]
      refine ih (n + 1) ?_
      have hrepl : List.replicate (n + 1) '\n' ++ u =
          List.replicate n '\n' ++ '\n' :: u := by
        rw [List.replicate_succ']
        simp
      rw [hrepl]
      exact hp
    · rw [collapseNl3Aux_cons ha]
      have hau : pairsOK R (a :: u) = true := pairsOK_append_right hp
      have hsplit : List.replicate n '\n' ++ a :: u =
          (List.replicate n '\n' ++ [a]) ++ u := by simp
      refine pairsOK_glue ?_ ?_
      · cases n with
        | zero => rfl
        | succ m =>
          have hleft : pairsOK R (List.replicate (m + 1) '\n' ++ [a]) = true := by
            rw [hsplit] at hp
            exact pairsOK_append_left hp
          have hna : R '\n' a = true := pairsOK_replicate_last (by omega) hleft
          exact pairsOK_replicate_with_last hR hna _
      · refine pairsOK_cons_of (ih 0 (by simpa using pairsOK_tail hau)) ?_
        intro y hy
        rw [collapseNl3_head_zero] at hy
        cases u with
        | nil => simp at hy
        | cons v w =>
          have : v = y := by simpa using hy
          exact this ▸ pairsOK_head hau

/-- The newline-run pass establishes the no-triple-newline invariant. -/
theorem collapseNl3_noNl3 (t : List Char) : ∀ n,
    noNl3 (collapseNl3Aux n t) = true := by
  induction t with
  | nil =>
    intro n
    apply noNl3_short
    show (List.replicate (min n 2) '\n').length ≤ 2
    simp only [List.length_replicate]
    omega
  | cons a u ih =>
    intro n
    by_cases ha : a = '\n'
    · subst ha
      rw [collapseNl3Aux_cons_nl]
      exact ih (n + 1)
    · rw [collapseNl3Aux_cons ha]
      have hca : (a == '\n') = false := beq_eq_false_iff_ne.mpr ha
      have hcons : noNl3 (a :: collapseNl3Aux 0 u) = true :=
        noNl3_cons_of_ne hca (ih 0)
      have hk : min n 2 = 0 ∨ min n 2 = 1 ∨ min n 2 = 2 := by omega
      rcases hk with hk | hk | hk
      · rw [hk]
        simpa using hcons
      · rw [hk]
        show noNl3 ('\n' :: a :: collapseNl3Aux 0 u) = true
        exact noNl3_cons₂ hca hcons
      · rw [hk]
        show noNl3 ('\n' :: '\n' :: a :: collapseNl3Aux 0 u) = true
        unfold noNl3
        refine bandI ?_ (noNl3_cons₂ hca hcons)
        simp [hca]

/-- A replicated-newline prefix of a triple-free string has length at most
two. -/
theorem replicate_nl_le_two {n : Nat} {l : List Char}
    (h : noNl3 (List.replicate n '\n' ++ l) = true) : n ≤ 2 := by
  by_contra hgt
  push_neg at hgt
  obtain ⟨m, rfl⟩ : ∃ m, n = m + 3 := ⟨n - 3, by omega⟩
  have h' : noNl3 ('\n' :: '\n' :: '\n' :: (List.replicate m '\n' ++ l)) = true := h
  unfold noNl3 at h'
  simpa using (bandE h').1

/-- The newline-run pass is the identity on triple-free strings. -/
theorem collapseNl3_id (t : List Char) : ∀ n,
    noNl3 (List.replicate n '\n' ++ t) = true →
    collapseNl3Aux n t = List.replicate n '\n' ++ t := by
  induction t with
  | nil =>
    intro n h
    have hn := replicate_nl_le_two h
    show List.replicate (min n 2) '\n' = _
    rw [Nat.min_eq_left hn, List.append_nil]
  | cons a u ih =>
    intro n h
    by_cases ha : a = '\n'
    · subst ha
      rw [collapseNl3Aux_cons_nl]
      have hrepl : List.replicate (n + 1) '\n' ++ u =
          List.replicate n '\n' ++ '\n' :: u := by
        rw [List.replicate_succ']
        simp
      rw [ih (n + 1) (by rw [hrepl]; exact h), hrepl]
    · rw [collapseNl3Aux_cons ha]
      have hn := replicate_nl_le_two h
      rw [Nat.min_eq_left hn]
      have hu : noNl3 u = true :=
        noNl3_tail (noNl3_append_right h)
      rw [ih 0 (by simpa using hu)]
      simp

/-- A literal replacement whose pattern contains `&` never fires on an
ampersand-free string. -/
theorem replaceAllFuel_no_amp {pat repl : List Char} (hpat : '&' ∈ pat) :
    ∀ (f : Nat) (s : List Char), '&' ∉ s → replaceAllFuel pat repl f s = s := by
  intro f
  induction f with
  | zero =>
    intro s _
    cases s with
    | nil => rfl
    | cons c t => rfl
  | succ f ih =>
    intro s h
    cases s with
    | nil => rfl
    | cons c t =>
      have hnp : ¬(pat ≠ [] ∧ pat.isPrefixOf (c :: t) = true) := by
        rintro ⟨-, hpre⟩
        have hsub := List.IsPrefix.sublist (List.isPrefixOf_iff_prefix.mp hpre)
        exact h (List.Sublist.mem hpat hsub)
      show (if pat ≠ [] ∧ pat.isPrefixOf (c :: t) = true then
          repl ++ replaceAllFuel pat repl f (List.drop (pat.length - 1) t)
        else c :: replaceAllFuel pat repl f t) = c :: t
      rw [if_neg hnp, ih t (fun hm => h (List.mem_cons_of_mem _ hm))]

theorem replaceAll_no_amp (pat repl s : List Char) (hpat : '&' ∈ pat)
    (h : '&' ∉ s) : replaceAll pat repl s = s :=
  replaceAllFuel_no_amp hpat s.length s h

/-- Numeric-reference decoding never fires on an ampersand-free string. -/
theorem decodeDecFuel_no_amp : ∀ (f : Nat) {s : List Char}, '&' ∉ s →
    decodeDecFuel f s = s := by
  intro f
  induction f with
  | zero =>
    intro s _
    cases s with
    | nil => rfl
    | cons c t => rfl
  | succ f ih =>
    intro s h
    cases s with
    | nil => rfl
    | cons c t =>
      have hc : ¬(c = '&') := fun e => h (e ▸ List.mem_cons_self c t)
      show (if c = '&' then
          match decNumMatch t with
          | some (n, r) => fromCharCode n ++ decodeDecFuel f r
          | none => c :: decodeDecFuel f t
        else c :: decodeDecFuel f t) = c :: t
      rw [if_neg hc, ih (fun hm => h (List.mem_cons_of_mem _ hm))]

theorem decodeHexFuel_no_amp : ∀ (f : Nat) {s : List Char}, '&' ∉ s →
    decodeHexFuel f s = s := by
  intro f
  induction f with
  | zero =>
    intro s _
    cases s with
    | nil => rfl
    | cons c t => rfl
  | succ f ih =>
    intro s h
    cases s with
    | nil => rfl
    | cons c t =>
      have hc : ¬(c = '&') := fun e => h (e ▸ List.mem_cons_self c t)
      show (if c = '&' then
          match hexNumMatch t with
          | some (n, r) => fromCharCode n ++ decodeHexFuel f r
          | none => c :: decodeHexFuel f t
        else c :: decodeHexFuel f t) = c :: t
      rw [if_neg hc, ih (fun hm => h (List.mem_cons_of_mem _ hm))]

/-- The inline entity chain of `processDescriptionText` is the identity on
ampersand-free strings. -/
theorem pdtEntityDecode_no_amp {s : List Char} (h : '&' ∉ s) :
    pdtEntityDecode s = s := by
  unfold pdtEntityDecode
  rw [replaceAll_no_amp (str "&amp;") (str "&") s (by decide) h,
    replaceAll_no_amp (str "&lt;") (str "<") s (by decide) h,
    replaceAll_no_amp (str "&gt;") (str ">") s (by decide) h,
    replaceAll_no_amp (str "&quot;") (str "\"") s (by decide) h,
    replaceAll_no_amp (str "&#39;") (str "\x27") s (by decide) h,
    replaceAll_no_amp (str "&nbsp;") (str " ") s (by decide) h,
    replaceAll_no_amp (str "&ndash;") (str "–") s (by decide) h,
    replaceAll_no_amp (str "&mdash;") (str "—") s (by decide) h]
  show decodeHexEntities (decodeDecEntities s) = s
  unfold decodeDecEntities
  rw [decodeDecFuel_no_amp s.length h]
  unfold decodeHexEntities
  rw [decodeHexFuel_no_amp s.length h]

/-- The whitespace pipeline introduces no ampersand. -/
theorem pipeline_no_amp {x : List Char} (hx : '&' ∉ x) :
    '&' ∉ collapseNl3 (trimNl (collapseST x)) := by
  intro hmem
  rcases collapseNl3_mem hmem with h | h
  · exact absurd h (by decide)
  · rcases trimNl_mem h with h' | h' | h'
    · simp at h'
    · rcases collapseST_mem h' with h'' | h''
      · exact absurd h'' (by decide)
      · exact hx h''.1
    · exact absurd h' (by decide)

/-- The whitespace pipeline output contains no tab. -/
theorem pipeline_no_tab (x : List Char) :
    '\t' ∉ collapseNl3 (trimNl (collapseST x)) := by
  intro hmem
  rcases collapseNl3_mem hmem with h | h
  · exact absurd h (by decide)
  · rcases trimNl_mem h with h' | h' | h'
    · simp at h'
    · rcases collapseST_mem h' with h'' | h''
      · exact absurd h'' (by decide)
      · exact absurd h''.2 (by decide)
    · exact absurd h' (by decide)

/-- Strings satisfying all the pipeline invariants are fixed points of
`processDescriptionText`. -/
theorem pdt_fixed {y : List Char} (hamp : '&' ∉ y) (htab : '\t' ∉ y)
    (hrun : pairsOK okRun y = true) (hnlsp : pairsOK okNlSp y = true)
    (hn3 : noNl3 y = true) (htrim : trimJs y = y) :
    processDescriptionText y = y := by
  have h2 : trimNl y = y := by
    have := trimNl_id_aux y [] (by simp) hnlsp
    simpa using this
  have h3 : collapseNl3 y = y := by
    have := collapseNl3_id y 0 (by simpa using hn3)
    simpa using this
  unfold processDescriptionText
  rw [collapseST_id htab hrun, h2, h3, pdtEntityDecode_no_amp hamp, htrim]

/-- C1 (amended): the description normalizer is idempotent on every input
containing no ampersand: the whitespace passes reach a normal form (no
space/tab runs, no space next to a newline, at most two consecutive
newlines, trimmed ends) and without entity text the decoding passes are
the identity.  With entities present a second application can decode
further (see the counterexample). -/
theorem processDescriptionText_idem_amp_free (x : List Char) (hx : '&' ∉ x) :
    processDescriptionText (processDescriptionText x) = processDescriptionText x := by
  have hz : '&' ∉ collapseNl3 (trimNl (collapseST x)) := pipeline_no_amp hx
  have h1 : processDescriptionText x = trimJs (collapseNl3 (trimNl (collapseST x))) := by
    unfold processDescriptionText
    rw [pdtEntityDecode_no_amp hz]
  rw [h1]
  apply pdt_fixed
  · intro hm
    exact hz (mem_trimJs hm)
  · intro hm
    exact pipeline_no_tab x (mem_trimJs hm)
  · apply pairsOK_trimJs
    refine collapseNl3_pairs (by decide) _ 0 ?_
    exact trimNl_pairsRun (collapseST x) [] false (by simp) (collapseST_pairs false x)
  · apply pairsOK_trimJs
    refine collapseNl3_pairs (by decide) _ 0 ?_
    exact trimNl_pairsNlSp (collapseST x) [] false (by simp)
  · apply noNl3_trimJs
    exact collapseNl3_noNl3 _ 0
  · exact trimJs_idem _

/-- Witness for C1: idempotence applied at a concrete ampersand-free
input with space runs, a tab, and a triple newline. -/
theorem processDescriptionText_idem_amp_free_witness :
    '&' ∉ str " a \t b \n\n\n c " ∧
    processDescriptionText (processDescriptionText (str " a \t b \n\n\n c ")) =
      processDescriptionText (str " a \t b \n\n\n c ") :=
  ⟨by decide, processDescriptionText_idem_amp_free (str " a \t b \n\n\n c ") (by decide)⟩

/-- C1 counterexample: the normalizer is not idempotent as claimed: the
entity-decoding step runs inside each application, so `"&amp;amp;"`
normalizes to `"&amp;"` once and to `"&"` twice. -/
theorem processDescriptionText_not_idem :
    processDescriptionText (processDescriptionText (str "&amp;amp;")) ≠
      processDescriptionText (str "&amp;amp;") := by decide
